import Mathlib

/-!
Verification development for the obsidian-agent-plugin core: the line-diff
engine and change ledger (`src/diff-utils.ts`) and the tool-use slice of the
streaming event reducer (`src/main.ts`, class `AgentChatView`).

Strings are modelled as Lean `String` at the API boundary and as `List Char`
internally.  The JavaScript `Map` is modelled as an association list with
JS `Map.get`/`Map.set`/`Map.delete` semantics (`alGet`/`alSet`/`alDelete`).
Effects (the vault file store, `Date.now()`, synthesized ids) are supplied
as explicit inputs, and thrown exceptions become explicit outcome values.
-/

set_option linter.unusedVariables false

namespace ObsidianAgent

/-- Token: one line of text, carrying its trailing newline when present. -/
abbrev Tok := List Char

/-- Kind of a diff chunk / diff entry (the `added` / `removed` flags of the
`diff` npm package's chunks; neither flag set means unchanged). -/
inductive Kind where
  | added
  | removed
  | unchanged
deriving DecidableEq

/-- A chunk produced by `Diff.diffLines`: a maximal run of consecutive line
tokens sharing one kind.  Its `value` is the concatenation of its tokens. -/
structure DChunk where
  kind : Kind
  toks : List Tok
deriving DecidableEq

/-- Modelled from the `diff` npm package (external dependency, not in the
repository): the line tokenizer of `Diff.diffLines`.  It splits a string
into lines, each token keeping its trailing newline; the final token may
lack one; the empty string yields no tokens. -/
def linesKeepNl : List Char → List (List Char)
  | [] => []
  | c :: cs =>
    if c = '\n' then [c] :: linesKeepNl cs
    else
      match linesKeepNl cs with
      | [] => [[c]]
      | l :: ls => (c :: l) :: ls

/-- Length of a longest common subsequence of two token lists (used to pick
diff branches, as a minimal-edit line diff does). -/
def lcsLen : List Tok → List Tok → Nat
  | [], _ => 0
  | _ :: _, [] => 0
  | x :: xs, y :: ys =>
    if x = y then lcsLen xs ys + 1
    else max (lcsLen xs (y :: ys)) (lcsLen (x :: xs) ys)
termination_by xs ys => xs.length + ys.length

/-- Prepend one token of kind `k` to a chunk list, merging it into the head
chunk when the kinds agree (chunks are maximal runs). -/
def consTok (k : Kind) (t : Tok) : List DChunk → List DChunk
  | [] => [⟨k, [t]⟩]
  | c :: cs => if c.kind = k then ⟨k, t :: c.toks⟩ :: cs else ⟨k, [t]⟩ :: c :: cs

/-- Modelled from the `diff` npm package (external dependency, not in the
repository): `Diff.diffLines` on tokenized inputs — a minimal line diff
emitting removed/added/unchanged chunks in input order. -/
def diffToks : List Tok → List Tok → List DChunk
  | [], [] => []
  | [], y :: ys => consTok .added y (diffToks [] ys)
  | x :: xs, [] => consTok .removed x (diffToks xs [])
  | x :: xs, y :: ys =>
    if x = y then consTok .unchanged x (diffToks xs ys)
    else if lcsLen (x :: xs) ys ≤ lcsLen xs (y :: ys) then
      consTok .removed x (diffToks xs (y :: ys))
    else
      consTok .added y (diffToks (x :: xs) ys)
termination_by xs ys => xs.length + ys.length

/-- JavaScript `value.split('\n')` on character lists. -/
def splitOnNl : List Char → List (List Char)
  | [] => [[]]
  | c :: cs =>
    if c = '\n' then [] :: splitOnNl cs
    else
      match splitOnNl cs with
      | [] => [[c]]
      | l :: ls => (c :: l) :: ls

/-- The per-chunk line list of `generateFormattedDiff`:
`change.value.split('\n').filter(line => line.length > 0)`. -/
def chunkLines (c : DChunk) : List (List Char) :=
  (splitOnNl c.toks.flatten).filter (fun l => decide (0 < l.length))

/-- The two-character marker the formatter puts before a line
(`"+ "`, `"- "`, or `"  "`). -/
def tagChars : Kind → List Char
  | .added => ['+', ' ']
  | .removed => ['-', ' ']
  | .unchanged => [' ', ' ']

/-- One output line of the formatted diff: its kind and its line text. -/
structure DiffEntry where
  kind : Kind
  text : List Char
deriving DecidableEq

/-- The entries a single chunk contributes to the formatted diff. -/
def chunkEntries (c : DChunk) : List DiffEntry :=
  (chunkLines c).map fun l => ⟨c.kind, l⟩

/-- The ordered entry sequence of `ChangeTracker.generateFormattedDiff`:
one entry per emitted `"± line"` row, in output order. -/
def formattedEntries (oldContent newContent : List Char) : List DiffEntry :=
  (diffToks (linesKeepNl oldContent) (linesKeepNl newContent)).flatMap chunkEntries

/-- `ChangeTracker.generateFormattedDiff` (src/diff-utils.ts:75-98): runs
`Diff.diffLines`, splits each chunk value on newlines, drops empty lines,
and emits each remaining line with a `"+ "` / `"- "` / `"  "` marker and a
trailing newline. -/
def generateFormattedDiff (oldContent newContent : String) : String :=
  ⟨(diffToks (linesKeepNl oldContent.data) (linesKeepNl newContent.data)).flatMap
    fun c => (chunkLines c).flatMap fun l => tagChars c.kind ++ l ++ ['\n']⟩

/-- The `operation` field of a `FileChange` (`'write' | 'edit'`). -/
inductive FileOp where
  | write
  | edit
deriving DecidableEq

/-- The `FileChange` record of src/diff-utils.ts. -/
structure FileChange where
  id : String
  timestamp : Nat
  filePath : String
  operation : FileOp
  oldContent : Option String
  newContent : String
  diff : String
  reverted : Bool
deriving DecidableEq

/-- JS `Map.get`: the value stored at a key, if any. -/
def alGet {α : Type} : List (String × α) → String → Option α
  | [], _ => none
  | (k, v) :: m, key => if k = key then some v else alGet m key

/-- JS `Map.set`: replace the value at an existing key in place, else append
a new entry (insertion order preserved). -/
def alSet {α : Type} : List (String × α) → String → α → List (String × α)
  | [], key, v => [(key, v)]
  | (k, w) :: m, key, v =>
    if k = key then (key, v) :: m else (k, w) :: alSet m key v

/-- JS `Map.delete`: remove the entry at a key, if present. -/
def alDelete {α : Type} : List (String × α) → String → List (String × α)
  | [], _ => []
  | (k, w) :: m, key => if k = key then m else (k, w) :: alDelete m key

/-- The `ChangeTracker.changes` map. -/
abbrev ChangeMap := List (String × FileChange)

/-- `ChangeTracker.recordChange` (src/diff-utils.ts:17-40).  `Date.now()` is
passed in explicitly as `timestamp`; the id is `` `${timestamp}_${filePath}` ``;
the diff is computed from `oldContent || ''` and `newContent`; the entry is
stored and returned. -/
def recordChange (m : ChangeMap) (timestamp : Nat) (filePath : String)
    (operation : FileOp) (oldContent : Option String) (newContent : String) :
    FileChange × ChangeMap :=
  let id := Nat.repr timestamp ++ "_" ++ filePath
  let diff := generateFormattedDiff (oldContent.getD "") newContent
  let change : FileChange :=
    { id := id, timestamp := timestamp, filePath := filePath,
      operation := operation, oldContent := oldContent,
      newContent := newContent, diff := diff, reverted := false }
  (change, alSet m id change)

/-- `ChangeTracker.getChange`. -/
def getChange (m : ChangeMap) (id : String) : Option FileChange :=
  alGet m id

/-- `ChangeTracker.markAsReverted`: look the id up; when present, set the
`reverted` flag; otherwise do nothing. -/
def markAsReverted (m : ChangeMap) (id : String) : ChangeMap :=
  match alGet m id with
  | none => m
  | some c => alSet m id { c with reverted := true }

/-- `ChangeTracker.markAsRestored`: look the id up; when present, clear the
`reverted` flag; otherwise do nothing. -/
def markAsRestored (m : ChangeMap) (id : String) : ChangeMap :=
  match alGet m id with
  | none => m
  | some c => alSet m id { c with reverted := false }

/-- `ChangeTracker.clearChange`: delete the entry. -/
def clearChange (m : ChangeMap) (id : String) : ChangeMap :=
  alDelete m id

/-- Outcome of `vault.getAbstractFileByPath`: a `TFile`, or not a file. -/
inductive FileLookup where
  | tfile
  | missing
deriving DecidableEq

/-- Outcome of the vault file operation (`delete` / `modify` / `create`)
performed inside the `try` block: success, or a thrown error message. -/
inductive VaultOp where
  | ok
  | throwErr (msg : String)
deriving DecidableEq

/-- The vault environment a revert/restore call runs against. -/
structure VaultEnv where
  lookup : FileLookup
  op : VaultOp
deriving DecidableEq

/-- `AgentChatView.revertChange` (src/main.ts:3226-3259).  Returns the
boolean result, the updated ledger, and the notices shown.  A thrown vault
operation lands in the `catch`: the ledger is untouched, an error notice is
shown, and `false` is returned; otherwise `markAsReverted` runs and `true`
is returned. -/
def revertChange (env : VaultEnv) (m : ChangeMap) (fc : FileChange) :
    Bool × ChangeMap × List String :=
  match fc.oldContent with
  | none =>
    match env.lookup with
    | .tfile =>
      match env.op with
      | .ok => (true, markAsReverted m fc.id, ["Reverted: Deleted " ++ fc.filePath])
      | .throwErr msg => (false, m, ["Error reverting change: " ++ msg])
    | .missing => (true, markAsReverted m fc.id, [])
  | some oldC =>
    match env.lookup with
    | .tfile =>
      match env.op with
      | .ok => (true, markAsReverted m fc.id, ["Reverted changes to " ++ fc.filePath])
      | .throwErr msg => (false, m, ["Error reverting change: " ++ msg])
    | .missing =>
      match env.op with
      | .ok => (true, markAsReverted m fc.id, ["Reverted: Restored " ++ fc.filePath])
      | .throwErr msg => (false, m, ["Error reverting change: " ++ msg])

/-- `AgentChatView.restoreChange` (src/main.ts:3261-3292): symmetric to
`revertChange`, writing `newContent` back and clearing the flag via
`markAsRestored` on success. -/
def restoreChange (env : VaultEnv) (m : ChangeMap) (fc : FileChange) :
    Bool × ChangeMap × List String :=
  match fc.oldContent with
  | none =>
    match env.op with
    | .ok => (true, markAsRestored m fc.id, ["Restored: Created " ++ fc.filePath])
    | .throwErr msg => (false, m, ["Error restoring change: " ++ msg])
  | some oldC =>
    match env.lookup with
    | .tfile =>
      match env.op with
      | .ok => (true, markAsRestored m fc.id, ["Restored changes to " ++ fc.filePath])
      | .throwErr msg => (false, m, ["Error restoring change: " ++ msg])
    | .missing =>
      match env.op with
      | .ok => (true, markAsRestored m fc.id, ["Restored: Created " ++ fc.filePath])
      | .throwErr msg => (false, m, ["Error restoring change: " ++ msg])

/-- The `input` object of a tool-use block: its `file_path` property (absent
or a string) plus an opaque remainder standing for the other properties. -/
structure ToolInput where
  file_path : Option String
  payload : Nat
deriving DecidableEq

/-- Oracle for one `getAbstractFileByPath` + `vault.read` on a path: the path
is not a `TFile`; it is one and reading yields `s`; or reading throws. -/
inductive ReadResult where
  | notFile
  | found (s : String)
  | readThrows
deriving DecidableEq

/-- The `ToolUseData` record of src/main.ts (AgentChatView).
`fileStateBefore : string | null | undefined` becomes
`Option (Option String)`: `none` = `undefined` (unset), `some none` = `null`,
`some (some s)` = captured content.  `element` is the render handle of the
on-screen block. -/
structure ToolData where
  id : String
  name : String
  input : ToolInput
  isExpanded : Bool
  result : Option String
  element : Option Nat
  fileChange : Option FileChange
  fileStateBefore : Option (Option String)
deriving DecidableEq

/-- An on-screen tool block (child of the assistant message element), as
built by `createToolUseElement`: `hasResult` mirrors whether the element was
created from a record carrying a result (which decides whether the progress
span exists), and `progress` is the progress span's elapsed-time text once
one was written (`none` = the initial `running...`). -/
structure Block where
  handle : Nat
  toolId : String
  name : String
  input : ToolInput
  hasResult : Bool
  progress : Option Nat
deriving DecidableEq

/-- `createToolUseElement` (src/main.ts:3392+): a fresh element rendering the
record; the progress span exists iff the record has no result yet. -/
def mkBlock (h : Nat) (td : ToolData) : Block :=
  { handle := h, toolId := td.id, name := td.name, input := td.input,
    hasResult := td.result.isSome, progress := none }

/-- Write elapsed-time text into the progress span of the block with the
given handle (no-op when the span does not exist, i.e. the block was built
with a result). -/
def updateProgressText (bs : List Block) (h : Nat) (elapsed : Nat) : List Block :=
  bs.map fun b =>
    if b.handle = h ∧ b.hasResult = false then { b with progress := some elapsed } else b

/-- The progress span text of the block with the given handle, if that block
exists and text was written (`none` = `running...` or no such block). -/
def blockProgress (bs : List Block) (h : Nat) : Option Nat :=
  match bs.find? (fun b => decide (b.handle = h)) with
  | some b => b.progress
  | none => none

/-- `oldElement.replaceWith(newElement)`: the block with handle `h` is
replaced, in place, by `nb`. -/
def replaceBlock (bs : List Block) (h : Nat) (nb : Block) : List Block :=
  bs.map fun b => if b.handle = h then nb else b

/-- The per-session view state the tool-use handlers act on:
`currentToolUses`, the on-screen tool blocks, a fresh-handle counter, the
`changeTracker` ledger, and the console log. -/
structure ViewState where
  toolUses : List (String × ToolData)
  blocks : List Block
  nextHandle : Nat
  tracker : ChangeMap
  logs : List String
deriving DecidableEq

/-- The protocol events the tool-use slice of the reducer consumes.  Effect
oracles ride on the events: `synthId` is the `` `tool_${Date.now()}_${Math.random()}` ``
fallback id, `readBefore`/`readAfter` the vault-read outcomes, `now` the
`Date.now()` value `recordChange` reads. -/
inductive AgentEvent where
  | toolProgress (tool_use_id : String) (tool_name : String) (elapsed : Nat)
  | toolUse (id : Option String) (synthId : String) (name : String)
      (input : ToolInput) (readBefore : ReadResult)
  | toolResult (tool_use_id : String) (content : String) (now : Nat)
      (readAfter : ReadResult)

/-- The `tool_progress` handler (src/main.ts:2957-2998): update the progress
span of an existing element, or create a placeholder record (empty input)
plus its on-screen block for an unseen id. -/
def stepProgress (s : ViewState) (tid tname : String) (elapsed : Nat) : ViewState :=
  match alGet s.toolUses tid with
  | some td =>
    match td.element with
    | some h => { s with blocks := updateProgressText s.blocks h elapsed }
    | none => s
  | none =>
    let h := s.nextHandle
    let td : ToolData :=
      { id := tid, name := tname, input := { file_path := none, payload := 0 },
        isExpanded := false, result := none, element := some h,
        fileChange := none, fileStateBefore := none }
    { s with toolUses := alSet s.toolUses tid td,
             blocks := s.blocks ++ [mkBlock h td],
             nextHandle := h + 1 }

/-- The before-state capture of the `tool_use` handler
(src/main.ts:3033-3051): for `Write`/`Edit` with a truthy `file_path` and a
still-`undefined` `fileStateBefore`, read the file — content on success,
`null` when the path is not a `TFile`, and `null` plus a console log when the
read throws (the `catch` branch). -/
def captureBefore (td : ToolData) (logs : List String) (name : String)
    (input : ToolInput) (rb : ReadResult) : ToolData × List String :=
  if name = "Write" ∨ name = "Edit" then
    match input.file_path with
    | some fp =>
      if fp ≠ "" ∧ td.fileStateBefore = none then
        match rb with
        | .found c => ({ td with fileStateBefore := some (some c) }, logs)
        | .notFile => ({ td with fileStateBefore := some none }, logs)
        | .readThrows =>
          ({ td with fileStateBefore := some none },
           logs ++ ["[ObsidianAgent] Could not read file before change"])
      else (td, logs)
    | none => (td, logs)
  else (td, logs)

/-- The body of the `tool_use` handler (src/main.ts:3010-3074) once the tool
id is resolved: merge into an existing record (updating only `input`) or
create a fresh one; run the before-state capture; then replace the existing
element in place (keeping its progress text) or append a new block. -/
def stepToolUseCore (s : ViewState) (toolId name : String)
    (input : ToolInput) (rb : ReadResult) : ViewState :=
  match alGet s.toolUses toolId with
  | none =>
    let td0 : ToolData :=
      { id := toolId, name := name, input := input, isExpanded := false,
        result := none, element := none, fileChange := none,
        fileStateBefore := none }
    let r := captureBefore td0 s.logs name input rb
    let h := s.nextHandle
    let td2 := { r.1 with element := some h }
    { s with toolUses := alSet s.toolUses toolId td2,
             blocks := s.blocks ++ [mkBlock h td2],
             nextHandle := h + 1,
             logs := r.2 }
  | some td =>
    let td0 := { td with input := input }
    let r := captureBefore td0 s.logs name input rb
    match (r.1).element with
    | some h =>
      let h2 := s.nextHandle
      let nb := { mkBlock h2 r.1 with progress := blockProgress s.blocks h }
      let td2 := { r.1 with element := some h2 }
      { s with toolUses := alSet s.toolUses toolId td2,
               blocks := replaceBlock s.blocks h nb,
               nextHandle := h2 + 1,
               logs := r.2 }
    | none =>
      { s with toolUses := alSet s.toolUses toolId r.1, logs := r.2 }

/-- The `tool_use` handler: compute the tool id, falling back to the
synthesized `` `tool_${Date.now()}_${Math.random()}` `` id when `block.id`
is falsy (absent or empty), then run the handler body. -/
def stepToolUse (s : ViewState) (blockId : Option String) (synthId name : String)
    (input : ToolInput) (rb : ReadResult) : ViewState :=
  let toolId :=
    match blockId with
    | some i => if i = "" then synthId else i
    | none => synthId
  stepToolUseCore s toolId name input rb

/-- The `tool_result` handler (src/main.ts:3088-3138): store the result on
the record for the id (ignore unknown ids); for `Write`/`Edit` with a
captured (non-`undefined`) `fileStateBefore` and truthy `file_path`, read the
post-state — on success call `recordChange` and link the `FileChange`, on a
thrown read log and continue, when the path is no `TFile` skip silently;
finally replace the on-screen block with a result-bearing one.  The
diff-recording part of the handler (src/main.ts:3099-3123) is
`resultUpdate`: it yields the updated record, ledger, and log. -/
def resultUpdate (tr : ChangeMap) (lgs : List String) (td1 : ToolData)
    (now : Nat) (ra : ReadResult) : ToolData × ChangeMap × List String :=
  if (td1.name = "Write" ∨ td1.name = "Edit") ∧ td1.fileStateBefore ≠ none then
    match td1.input.file_path with
    | some fp =>
      if fp = "" then (td1, tr, lgs)
      else
        match ra with
        | .found after =>
          match td1.fileStateBefore with
          | some oc =>
            let rc := recordChange tr now fp
              (if td1.name = "Write" then FileOp.write else FileOp.edit) oc after
            ({ td1 with fileChange := some rc.1 }, rc.2, lgs)
          | none => (td1, tr, lgs)
        | .notFile => (td1, tr, lgs)
        | .readThrows =>
          (td1, tr, lgs ++ ["[ObsidianAgent] Could not generate diff"])
    | none => (td1, tr, lgs)
  else (td1, tr, lgs)

/-- The remainder of the `tool_result` handler: look the id up (unknown ids
are ignored), store the result, run `resultUpdate`, and re-render. -/
def stepToolResult (s : ViewState) (tid content : String) (now : Nat)
    (ra : ReadResult) : ViewState :=
  match alGet s.toolUses tid with
  | none => s
  | some td =>
    let td1 := { td with result := some content }
    let r := resultUpdate s.tracker s.logs td1 now ra
    match (r.1).element with
    | some h =>
      let h2 := s.nextHandle
      let td3 := { r.1 with element := some h2 }
      { s with toolUses := alSet s.toolUses tid td3,
               blocks := replaceBlock s.blocks h (mkBlock h2 td3),
               nextHandle := h2 + 1,
               tracker := r.2.1,
               logs := r.2.2 }
    | none =>
      { s with toolUses := alSet s.toolUses tid r.1,
               tracker := r.2.1,
               logs := r.2.2 }

/-- One step of the tool-use slice of the stream reduction loop. -/
def step (s : ViewState) (e : AgentEvent) : ViewState :=
  match e with
  | .toolProgress tid tname elapsed => stepProgress s tid tname elapsed
  | .toolUse bid synth name input rb => stepToolUse s bid synth name input rb
  | .toolResult tid content now ra => stepToolResult s tid content now ra

/-- The state at the start of a query: empty registry, no blocks, empty
ledger. -/
def initState : ViewState :=
  { toolUses := [], blocks := [], nextHandle := 0, tracker := [], logs := [] }

/-- Process an event sequence of one session from the initial state. -/
def run (evs : List AgentEvent) : ViewState :=
  evs.foldl step initState

/-- Does an entry of this kind belong to the new text (Unchanged or Added)? -/
def keepNew : Kind → Bool
  | .removed => false
  | _ => true

/-- Does an entry of this kind belong to the old text (Unchanged or Removed)? -/
def keepOld : Kind → Bool
  | .added => false
  | _ => true

/-- The tokens of the Unchanged and Added chunks, in order. -/
def newToks (cs : List DChunk) : List Tok :=
  cs.flatMap fun c => if keepNew c.kind then c.toks else []

/-- The tokens of the Unchanged and Removed chunks, in order. -/
def oldToks (cs : List DChunk) : List Tok :=
  cs.flatMap fun c => if keepOld c.kind then c.toks else []

/-- A line token is good when it is a non-empty line terminated by its
newline: at least two characters, the last one `'\n'`. -/
def goodTok (t : List Char) : Bool :=
  decide (2 ≤ t.length) && decide (t.getLast? = some '\n')

/-- An input is good when every one of its lines is non-empty and carries a
terminating newline (so the text is empty or ends in a newline and has no
blank lines). -/
def goodInput (cs : List Char) : Bool :=
  (linesKeepNl cs).all goodTok

/-- Every `FileChange` field except the mutable `reverted` flag. -/
def frameOf (c : FileChange) :
    String × Nat × String × FileOp × Option String × String × String :=
  (c.id, c.timestamp, c.filePath, c.operation, c.oldContent, c.newContent, c.diff)

/-- Decimal value of a digit string (inverse of `Nat.toDigits 10`). -/
def digitsVal (cs : List Char) : Nat :=
  cs.foldl (fun a c => 10 * a + (c.toNat - 48)) 0

/-- The state invariant of the tool-use slice: registry keys are distinct
and match the records' ids; on-screen blocks have distinct tool ids and
distinct handles, all below the fresh-handle counter; every block belongs
to a registry record whose render handle points back at it, and every
rendered record's handle belongs to some block of its own tool id. -/
def Inv (s : ViewState) : Prop :=
  (s.toolUses.map Prod.fst).Nodup
  ∧ (∀ p ∈ s.toolUses, (p.2).id = p.1)
  ∧ (s.blocks.map Block.toolId).Nodup
  ∧ (s.blocks.map Block.handle).Nodup
  ∧ (∀ b ∈ s.blocks, b.handle < s.nextHandle)
  ∧ (∀ b ∈ s.blocks, ∃ td, alGet s.toolUses b.toolId = some td ∧ td.element = some b.handle)
  ∧ (∀ p ∈ s.toolUses, ∀ h, (p.2).element = some h →
      ∃ b ∈ s.blocks, b.toolId = p.1 ∧ b.handle = h)


/-- A concrete ledger entry, used as a test fixture by witnesses. -/
def fcSample : FileChange :=
  { id := "5_a.md", timestamp := 5, filePath := "a.md",
    operation := FileOp.write, oldContent := none, newContent := "x",
    diff := "+ x\n", reverted := false }

/-- A one-entry ledger, used as a test fixture by witnesses. -/
def ledgerSample : ChangeMap := [("5_a.md", fcSample)]

/-- A concrete tool record, used as a test fixture by witnesses: the state
of the registry entry after `toolUse (some "t1") "s1" "Alpha" ⟨none, 1⟩`
processed from the initial state. -/
def tdSample : ToolData :=
  { id := "t1", name := "Alpha", input := ⟨none, 1⟩, isExpanded := false,
    result := none, element := some 0, fileChange := none, fileStateBefore := none }

/-! ## Diff engine lemmas -/

theorem flatten_linesKeepNl (cs : List Char) : (linesKeepNl cs).flatten = cs := by
  induction cs with
  | nil => rfl
  | cons c cs ih =>
    by_cases h : c = '\n'
    · subst h; simpa [linesKeepNl] using ih
    · simp only [linesKeepNl, if_neg h]
      cases hrec : linesKeepNl cs with
      | nil =>
        rw [hrec] at ih; simp only [List.flatten_nil] at ih
        simp [← ih]
      | cons l ls =>
        rw [hrec] at ih
        simpa using ih

theorem newToks_consTok (k : Kind) (t : Tok) (cs : List DChunk) :
    newToks (consTok k t cs) = if keepNew k then t :: newToks cs else newToks cs := by
  cases cs with
  | nil => by_cases hk : keepNew k <;> simp [consTok, newToks, hk]
  | cons c cs =>
    by_cases hc : c.kind = k
    · by_cases hk : keepNew k <;> simp [consTok, hc, newToks, hk]
    · by_cases hk : keepNew k <;> simp [consTok, hc, newToks, hk]

theorem oldToks_consTok (k : Kind) (t : Tok) (cs : List DChunk) :
    oldToks (consTok k t cs) = if keepOld k then t :: oldToks cs else oldToks cs := by
  cases cs with
  | nil => by_cases hk : keepOld k <;> simp [consTok, oldToks, hk]
  | cons c cs =>
    by_cases hc : c.kind = k
    · by_cases hk : keepOld k <;> simp [consTok, hc, oldToks, hk]
    · by_cases hk : keepOld k <;> simp [consTok, hc, oldToks, hk]

theorem newToks_diffToks (xs ys : List Tok) : newToks (diffToks xs ys) = ys := by
  induction xs, ys using diffToks.induct with
  | case1 => simp [diffToks, newToks]
  | case2 y ys ih => simp [diffToks, newToks_consTok, keepNew, ih]
  | case3 x xs ih => simp [diffToks, newToks_consTok, keepNew, ih]
  | case4 xs y ys ih => simp [diffToks, newToks_consTok, keepNew, ih]
  | case5 x xs y ys hne hle ih => simp [diffToks, hne, hle, newToks_consTok, keepNew, ih]
  | case6 x xs y ys hne hle ih => simp [diffToks, hne, hle, newToks_consTok, keepNew, ih]

theorem oldToks_diffToks (xs ys : List Tok) : oldToks (diffToks xs ys) = xs := by
  induction xs, ys using diffToks.induct with
  | case1 => simp [diffToks, oldToks]
  | case2 y ys ih => simp [diffToks, oldToks_consTok, keepOld, ih]
  | case3 x xs ih => simp [diffToks, oldToks_consTok, keepOld, ih]
  | case4 xs y ys ih => simp [diffToks, oldToks_consTok, keepOld, ih]
  | case5 x xs y ys hne hle ih => simp [diffToks, hne, hle, oldToks_consTok, keepOld, ih]
  | case6 x xs y ys hne hle ih => simp [diffToks, hne, hle, oldToks_consTok, keepOld, ih]

theorem mem_toks_consTok {k : Kind} {t u : Tok} {cs : List DChunk} {c : DChunk}
    (hc : c ∈ consTok k t cs) (hu : u ∈ c.toks) :
    u = t ∨ ∃ c2 ∈ cs, u ∈ c2.toks := by
  cases cs with
  | nil =>
    simp [consTok] at hc
    subst hc
    simp at hu
    exact Or.inl hu
  | cons c0 cs =>
    by_cases hk : c0.kind = k
    · simp [consTok, hk] at hc
      rcases hc with hc | hc
      · subst hc
        simp at hu
        rcases hu with hu | hu
        · exact Or.inl hu
        · exact Or.inr ⟨c0, by simp, hu⟩
      · exact Or.inr ⟨c, by simp [hc], hu⟩
    · simp [consTok, hk] at hc
      rcases hc with hc | hc | hc
      · subst hc; simp at hu; exact Or.inl hu
      · exact Or.inr ⟨c, by simp [hc], hu⟩
      · exact Or.inr ⟨c, by simp [hc], hu⟩

theorem mem_toks_diffToks {xs ys : List Tok} {c : DChunk} {u : Tok}
    (hc : c ∈ diffToks xs ys) (hu : u ∈ c.toks) : u ∈ xs ∨ u ∈ ys := by
  induction xs, ys using diffToks.induct generalizing c with
  | case1 => simp [diffToks] at hc
  | case2 y ys ih =>
    rw [diffToks] at hc
    rcases mem_toks_consTok hc hu with h | ⟨c2, hc2, hu2⟩
    · exact Or.inr (by simp [h])
    · rcases ih hc2 hu2 with h | h
      · exact Or.inl h
      · exact Or.inr (by simp [h])
  | case3 x xs ih =>
    rw [diffToks] at hc
    rcases mem_toks_consTok hc hu with h | ⟨c2, hc2, hu2⟩
    · exact Or.inl (by simp [h])
    · rcases ih hc2 hu2 with h | h
      · exact Or.inl (by simp [h])
      · exact Or.inr h
  | case4 xs y ys ih =>
    rw [diffToks, if_pos rfl] at hc
    rcases mem_toks_consTok hc hu with h | ⟨c2, hc2, hu2⟩
    · exact Or.inl (by simp [h])
    · rcases ih hc2 hu2 with h | h
      · exact Or.inl (by simp [h])
      · exact Or.inr (by simp [h])
  | case5 x xs y ys hne hle ih =>
    rw [diffToks, if_neg hne, if_pos hle] at hc
    rcases mem_toks_consTok hc hu with h | ⟨c2, hc2, hu2⟩
    · exact Or.inl (by simp [h])
    · rcases ih hc2 hu2 with h | h
      · exact Or.inl (by simp [h])
      · exact Or.inr h
  | case6 x xs y ys hne hle ih =>
    rw [diffToks, if_neg hne, if_neg hle] at hc
    rcases mem_toks_consTok hc hu with h | ⟨c2, hc2, hu2⟩
    · exact Or.inr (by simp [h])
    · rcases ih hc2 hu2 with h | h
      · exact Or.inl h
      · exact Or.inr (by simp [h])

theorem linesKeepNl_shape {cs : List Char} {t : List Char} (ht : t ∈ linesKeepNl cs) :
    t ≠ [] ∧ '\n' ∉ t.dropLast := by
  induction cs generalizing t with
  | nil => simp [linesKeepNl] at ht
  | cons c cs ih =>
    by_cases h : c = '\n'
    · subst h
      simp only [linesKeepNl, if_true, eq_self_iff_true, if_pos, List.mem_cons] at ht
      rcases ht with rfl | ht
      · exact ⟨by simp, by simp⟩
      · exact ih ht
    · simp only [linesKeepNl, if_neg h] at ht
      cases hrec : linesKeepNl cs with
      | nil =>
        rw [hrec] at ht
        simp at ht
        subst ht
        exact ⟨by simp, by simp⟩
      | cons l ls =>
        rw [hrec] at ht
        simp only [List.mem_cons] at ht
        rcases ht with rfl | ht
        · have hl := ih (t := l) (by simp [hrec])
          refine ⟨by simp, ?_⟩
          rw [List.dropLast_cons_of_ne_nil hl.1]
          simp only [List.mem_cons]
          rintro (rfl | hmem)
          · exact h rfl
          · exact hl.2 hmem
        · exact ih (by simp [hrec, ht])

theorem goodTok_decomp {t : List Char} (hshape : t ≠ [] ∧ '\n' ∉ t.dropLast)
    (hg : goodTok t = true) :
    ∃ body, t = body ++ ['\n'] ∧ body ≠ [] ∧ '\n' ∉ body := by
  rcases hshape with ⟨hne, hnl⟩
  rcases List.eq_nil_or_concat t with rfl | ⟨body, a, rfl⟩
  · exact absurd rfl hne
  · simp only [goodTok, Bool.and_eq_true, decide_eq_true_eq] at hg
    rcases hg with ⟨hlen, hlast⟩
    simp only [List.concat_eq_append] at hlen hlast hnl ⊢
    rw [List.getLast?_concat] at hlast
    obtain rfl : a = '\n' := by simpa using hlast
    refine ⟨body, rfl, ?_, ?_⟩
    · intro hb
      subst hb
      simp at hlen
    · simpa using hnl

theorem splitOnNl_ne_nil (cs : List Char) : splitOnNl cs ≠ [] := by
  cases cs with
  | nil => simp [splitOnNl]
  | cons c cs =>
    by_cases h : c = '\n'
    · simp [splitOnNl, h]
    · simp only [splitOnNl, if_neg h]
      cases hrec : splitOnNl cs <;> simp

theorem splitOnNl_nlfree_append {body rest : List Char} (hb : '\n' ∉ body) :
    splitOnNl (body ++ '\n' :: rest) = body :: splitOnNl rest := by
  induction body with
  | nil => simp [splitOnNl]
  | cons c body ih =>
    have hc : c ≠ '\n' := fun hc => hb (by simp [hc])
    have hb2 : '\n' ∉ body := fun hm => hb (by simp [hm])
    simp only [List.cons_append, splitOnNl, if_neg hc, List.append_eq]
    rw [ih hb2]

theorem mem_splitOnNl_nlfree {cs : List Char} {l : List Char} (hl : l ∈ splitOnNl cs) :
    '\n' ∉ l := by
  induction cs generalizing l with
  | nil =>
    simp [splitOnNl] at hl
    simp [hl]
  | cons c cs ih =>
    by_cases h : c = '\n'
    · subst h
      simp only [splitOnNl, if_true, eq_self_iff_true, if_pos, List.mem_cons] at hl
      rcases hl with rfl | hl
      · simp
      · exact ih hl
    · simp only [splitOnNl, if_neg h] at hl
      cases hrec : splitOnNl cs with
      | nil => exact absurd hrec (splitOnNl_ne_nil cs)
      | cons l0 ls =>
        rw [hrec] at hl
        simp only [List.mem_cons] at hl
        rcases hl with rfl | hl
        · have h0 : '\n' ∉ l0 := ih (by simp [hrec])
          simp only [List.mem_cons]
          rintro (rfl | hm)
          · exact h rfl
          · exact h0 hm
        · exact ih (l := l) (by simp [hrec, hl])

/-- For a chunk of good tokens, the filtered split recovers exactly the
token bodies. -/
theorem chunkLines_good (toks : List Tok)
    (h : ∀ t ∈ toks, ∃ body, t = body ++ ['\n'] ∧ body ≠ [] ∧ '\n' ∉ body) :
    (splitOnNl toks.flatten).filter (fun l => decide (0 < l.length)) =
      toks.map List.dropLast := by
  induction toks with
  | nil => simp [splitOnNl]
  | cons t ts ih =>
    obtain ⟨body, rfl, hbne, hbnl⟩ := h t (by simp)
    have hrest := ih (fun u hu => h u (by simp [hu]))
    simp only [List.flatten_cons, List.append_assoc, List.singleton_append]
    rw [splitOnNl_nlfree_append hbnl]
    have hkeep : decide (0 < body.length) = true := by
      simpa [List.length_pos_iff_ne_nil] using hbne
    simp only [List.filter_cons, hkeep, if_true, hrest, List.map_cons]
    congr 1
    simp

theorem filter_flatMap {α β : Type} (l : List α) (f : α → List β) (p : β → Bool) :
    (l.flatMap f).filter p = l.flatMap fun a => (f a).filter p := by
  induction l with
  | nil => rfl
  | cons a l ih => simp [List.flatMap_cons, List.filter_append, ih]

theorem chunkEntries_filter_keepNew (c : DChunk) :
    (chunkEntries c).filter (fun e => keepNew e.kind) =
      if keepNew c.kind then chunkEntries c else [] := by
  by_cases hk : keepNew c.kind
  · simp only [chunkEntries, List.filter_map, Function.comp, hk, if_true]
    congr 1
    apply List.filter_eq_self.mpr
    intro l hl
    simp [hk]
  · simp only [chunkEntries, List.filter_map, Function.comp, hk, if_false, Bool.false_eq_true]
    rw [List.filter_eq_nil_iff.mpr]
    · simp
    · intro l hl
      simp [hk]

theorem chunkEntries_filter_keepOld (c : DChunk) :
    (chunkEntries c).filter (fun e => keepOld e.kind) =
      if keepOld c.kind then chunkEntries c else [] := by
  by_cases hk : keepOld c.kind
  · simp only [chunkEntries, List.filter_map, Function.comp, hk, if_true]
    congr 1
    apply List.filter_eq_self.mpr
    intro l hl
    simp [hk]
  · simp only [chunkEntries, List.filter_map, Function.comp, hk, if_false, Bool.false_eq_true]
    rw [List.filter_eq_nil_iff.mpr]
    · simp
    · intro l hl
      simp [hk]

theorem flatMap_dropLast_nl (toks : List Tok)
    (h : ∀ t ∈ toks, ∃ body, t = body ++ ['\n'] ∧ body ≠ [] ∧ '\n' ∉ body) :
    (toks.map List.dropLast).flatMap (fun l => l ++ ['\n']) = toks.flatten := by
  induction toks with
  | nil => simp
  | cons t ts ih =>
    obtain ⟨body, rfl, hbne, hbnl⟩ := h t (by simp)
    simp only [List.map_cons, List.flatMap_cons, List.flatten_cons,
      ih (fun u hu => h u (by simp [hu]))]
    congr 1
    simp

/-- A chunk of good tokens is restored by re-appending a newline to each of
its entry texts. -/
theorem chunkEntries_restore (c : DChunk)
    (h : ∀ t ∈ c.toks, ∃ body, t = body ++ ['\n'] ∧ body ≠ [] ∧ '\n' ∉ body) :
    (chunkEntries c).flatMap (fun e => e.text ++ ['\n']) = c.toks.flatten := by
  have hmap : (chunkEntries c).flatMap (fun e => e.text ++ ['\n']) =
      (chunkLines c).flatMap (fun l => l ++ ['\n']) := by
    simp [chunkEntries, List.flatMap_map, Function.comp]
  rw [hmap]
  simp only [chunkLines]
  rw [chunkLines_good c.toks h, flatMap_dropLast_nl c.toks h]

theorem goodInput_toks {cs : List Char} (hg : goodInput cs = true) :
    ∀ t ∈ linesKeepNl cs, ∃ body, t = body ++ ['\n'] ∧ body ≠ [] ∧ '\n' ∉ body := by
  intro t ht
  have hall := List.all_eq_true.mp hg t ht
  exact goodTok_decomp (linesKeepNl_shape ht) hall

theorem flatMap_if_flatten (chunks : List DChunk) (p : Kind → Bool) :
    (chunks.flatMap fun c => if p c.kind then c.toks.flatten else []) =
      (chunks.flatMap fun c => if p c.kind then c.toks else []).flatten := by
  induction chunks with
  | nil => rfl
  | cons c cs ih => by_cases hp : p c.kind <;> simp [List.flatMap_cons, hp, ih]

theorem entries_newSide {o n : List Char} (ho : goodInput o = true)
    (hn : goodInput n = true) :
    ((formattedEntries o n).filter fun e => keepNew e.kind).flatMap
        (fun e => e.text ++ ['\n']) = n := by
  have hgood : ∀ c ∈ diffToks (linesKeepNl o) (linesKeepNl n), ∀ t ∈ c.toks,
      ∃ body, t = body ++ ['\n'] ∧ body ≠ [] ∧ '\n' ∉ body := by
    intro c hc t htc
    rcases mem_toks_diffToks hc htc with h | h
    · exact goodInput_toks ho t h
    · exact goodInput_toks hn t h
  rw [formattedEntries, filter_flatMap, List.flatMap_assoc]
  rw [List.flatMap_congr (g := fun c => if keepNew c.kind then c.toks.flatten else []) ?_]
  · rw [flatMap_if_flatten]
    have hfold : ((diffToks (linesKeepNl o) (linesKeepNl n)).flatMap
        fun c => if keepNew c.kind then c.toks else []) =
        newToks (diffToks (linesKeepNl o) (linesKeepNl n)) := rfl
    rw [hfold, newToks_diffToks, flatten_linesKeepNl]
  · intro c hc
    rw [chunkEntries_filter_keepNew]
    by_cases hk : keepNew c.kind
    · simp only [hk, if_true]
      exact chunkEntries_restore c (hgood c hc)
    · simp [hk]

theorem entries_oldSide {o n : List Char} (ho : goodInput o = true)
    (hn : goodInput n = true) :
    ((formattedEntries o n).filter fun e => keepOld e.kind).flatMap
        (fun e => e.text ++ ['\n']) = o := by
  have hgood : ∀ c ∈ diffToks (linesKeepNl o) (linesKeepNl n), ∀ t ∈ c.toks,
      ∃ body, t = body ++ ['\n'] ∧ body ≠ [] ∧ '\n' ∉ body := by
    intro c hc t htc
    rcases mem_toks_diffToks hc htc with h | h
    · exact goodInput_toks ho t h
    · exact goodInput_toks hn t h
  rw [formattedEntries, filter_flatMap, List.flatMap_assoc]
  rw [List.flatMap_congr (g := fun c => if keepOld c.kind then c.toks.flatten else []) ?_]
  · rw [flatMap_if_flatten]
    have hfold : ((diffToks (linesKeepNl o) (linesKeepNl n)).flatMap
        fun c => if keepOld c.kind then c.toks else []) =
        oldToks (diffToks (linesKeepNl o) (linesKeepNl n)) := rfl
    rw [hfold, oldToks_diffToks, flatten_linesKeepNl]
  · intro c hc
    rw [chunkEntries_filter_keepOld]
    by_cases hk : keepOld c.kind
    · simp only [hk, if_true]
      exact chunkEntries_restore c (hgood c hc)
    · simp [hk]

theorem generateFormattedDiff_entries (o n : String) :
    generateFormattedDiff o n =
      ⟨(formattedEntries o.data n.data).flatMap
        fun e => tagChars e.kind ++ e.text ++ ['\n']⟩ := by
  rw [generateFormattedDiff, formattedEntries, List.flatMap_assoc]
  congr 2
  funext c
  simp [chunkEntries, List.flatMap_map, Function.comp]

/-! ## Claim C1 and C2 -/


/-- C1 (amended): for inputs all of whose lines are non-empty and
newline-terminated, the diff produced by `generateFormattedDiff` satisfies
the reconstruction law: replaying the Unchanged and Added entries in order,
each line followed by its newline, yields `newText`, and replaying the
Unchanged and Removed entries yields `oldText`; the formatted diff string
is exactly these entries rendered with their markers. -/
theorem claim_C1 (oldContent newContent : String)
    (ho : goodInput oldContent.data = true) (hn : goodInput newContent.data = true) :
    (((formattedEntries oldContent.data newContent.data).filter
        fun e => keepNew e.kind).flatMap (fun e => e.text ++ ['\n']) = newContent.data)
    ∧ (((formattedEntries oldContent.data newContent.data).filter
        fun e => keepOld e.kind).flatMap (fun e => e.text ++ ['\n']) = oldContent.data)
    ∧ generateFormattedDiff oldContent newContent =
        ⟨(formattedEntries oldContent.data newContent.data).flatMap
          fun e => tagChars e.kind ++ e.text ++ ['\n']⟩ :=
  ⟨entries_newSide ho hn, entries_oldSide ho hn, generateFormattedDiff_entries _ _⟩

/-- Witness for C1 at `oldText = "a\nb\n"`, `newText = "a\nc\n"`. -/
theorem claim_C1_witness :
    (goodInput "a\nb\n".data = true ∧ goodInput "a\nc\n".data = true)
    ∧ ((((formattedEntries "a\nb\n".data "a\nc\n".data).filter
        fun e => keepNew e.kind).flatMap (fun e => e.text ++ ['\n']) = "a\nc\n".data)
      ∧ (((formattedEntries "a\nb\n".data "a\nc\n".data).filter
        fun e => keepOld e.kind).flatMap (fun e => e.text ++ ['\n']) = "a\nb\n".data)
      ∧ generateFormattedDiff "a\nb\n" "a\nc\n" =
          ⟨(formattedEntries "a\nb\n".data "a\nc\n".data).flatMap
            fun e => tagChars e.kind ++ e.text ++ ['\n']⟩) :=
  ⟨⟨by decide, by decide⟩, claim_C1 "a\nb\n" "a\nc\n" (by decide) (by decide)⟩

/-- C1 counterexample: at `oldText = ""`, `newText = "a\n\nb"` the blank
line is dropped, so no way of concatenating the Unchanged and Added entry
texts (with trailing newlines, bare, or newline-separated) reconstructs
`newText`. -/
theorem claim_C1_cex :
    formattedEntries "".data "a\n\nb".data = [⟨.added, ['a']⟩, ⟨.added, ['b']⟩]
    ∧ (((formattedEntries "".data "a\n\nb".data).filter fun e => keepNew e.kind).flatMap
        (fun e => e.text ++ ['\n']) ≠ "a\n\nb".data)
    ∧ (((formattedEntries "".data "a\n\nb".data).filter fun e => keepNew e.kind).flatMap
        (fun e => e.text) ≠ "a\n\nb".data)
    ∧ (List.intercalate ['\n'] (((formattedEntries "".data "a\n\nb".data).filter
        fun e => keepNew e.kind).map fun e => e.text) ≠ "a\n\nb".data) := by
  refine ⟨?_, ?_, ?_, ?_⟩ <;>
    simp [formattedEntries, diffToks, linesKeepNl, chunkEntries, chunkLines,
      splitOnNl, consTok, keepNew, List.intercalate]

/-- C2 (amended): the diff operates at line granularity — every entry is a
single line (no embedded newline) — but blank lines are dropped by the
`line.length > 0` filter, never emitted as empty entries: every entry text
is non-empty. -/
theorem claim_C2 (oldContent newContent : String) :
    (formattedEntries oldContent.data newContent.data).all
      (fun e => decide (e.text ≠ []) && decide ('\n' ∉ e.text)) = true := by
  rw [List.all_eq_true]
  intro e he
  rw [formattedEntries, List.mem_flatMap] at he
  obtain ⟨c, hc, he⟩ := he
  rw [chunkEntries, List.mem_map] at he
  obtain ⟨l, hl, rfl⟩ := he
  rw [chunkLines, List.mem_filter] at hl
  obtain ⟨hsp, hpos⟩ := hl
  simp only [Bool.and_eq_true, decide_eq_true_eq]
  constructor
  · intro h
    subst h
    simp at hpos
  · exact mem_splitOnNl_nlfree hsp

/-- C2 counterexample: the input `"\n"` consists of one empty line, yet the
formatted diff of `("", "\n")` is empty — the blank line was dropped, not
preserved as an empty entry. -/
theorem claim_C2_cex :
    generateFormattedDiff "" "\n" = ""
    ∧ formattedEntries "".data "\n".data = []
    ∧ linesKeepNl "\n".data = [['\n']] := by
  refine ⟨?_, ?_, ?_⟩ <;>
    simp [generateFormattedDiff, formattedEntries, diffToks, linesKeepNl,
      chunkEntries, chunkLines, splitOnNl, consTok]


/-! ## Ledger lemmas and claims C4, C10, C8, C5 -/

theorem alGet_alSet {α : Type} (m : List (String × α)) (key k : String) (v : α) :
    alGet (alSet m key v) k = if key = k then some v else alGet m k := by
  induction m with
  | nil => simp [alSet, alGet]
  | cons p m ih =>
    obtain ⟨k0, w⟩ := p
    by_cases h0 : k0 = key
    · subst h0
      simp only [alSet, if_true, eq_self_iff_true, if_pos]
      by_cases hk : k0 = k
      · simp [alGet, hk]
      · simp [alGet, hk]
    · simp only [alSet, if_neg h0, alGet]
      by_cases hk : k0 = k
      · subst hk
        simp only [if_true, eq_self_iff_true, if_pos]
        rw [if_neg]
        intro h
        exact h0 h.symm
      · simp [if_neg hk, ih]

theorem alGet_mem {α : Type} {m : List (String × α)} {k : String} {v : α}
    (h : alGet m k = some v) : (k, v) ∈ m := by
  induction m with
  | nil => simp [alGet] at h
  | cons p m ih =>
    obtain ⟨k0, w⟩ := p
    by_cases h0 : k0 = k
    · subst h0
      simp [alGet] at h
      simp [h]
    · simp only [alGet, if_neg h0] at h
      simp [ih h]

theorem alDelete_of_none {α : Type} {m : List (String × α)} {k : String}
    (h : alGet m k = none) : alDelete m k = m := by
  induction m with
  | nil => rfl
  | cons p m ih =>
    obtain ⟨k0, w⟩ := p
    by_cases h0 : k0 = k
    · subst h0; simp [alGet] at h
    · simp only [alGet, if_neg h0] at h
      simp [alDelete, if_neg h0, ih h]

/-- C4: `markAsReverted` and `markAsRestored` never mutate the
`oldContent`, `newContent`, or `diff` fields (nor id, timestamp, path, or
operation) of any ledger entry: under the `frameOf` projection, which drops
only the `reverted` flag, the ledger is unchanged at every id. -/
theorem claim_C4 (m : ChangeMap) (id k : String) :
    (alGet (markAsReverted m id) k).map frameOf = (alGet m k).map frameOf
    ∧ (alGet (markAsRestored m id) k).map frameOf = (alGet m k).map frameOf := by
  constructor
  · rw [markAsReverted]
    cases hc : alGet m id with
    | none => rfl
    | some c =>
      rw [alGet_alSet]
      by_cases hk : id = k
      · subst hk
        rw [if_pos rfl, hc]
        rfl
      · rw [if_neg hk]
  · rw [markAsRestored]
    cases hc : alGet m id with
    | none => rfl
    | some c =>
      rw [alGet_alSet]
      by_cases hk : id = k
      · subst hk
        rw [if_pos rfl, hc]
        rfl
      · rw [if_neg hk]

/-- C10: calling `markAsReverted`, `markAsRestored`, or `clearChange` with
an id that has no ledger entry is a total no-op: each returns the ledger
unchanged (every entry and every field untouched). -/
theorem claim_C10 (m : ChangeMap) (id : String) (h : getChange m id = none) :
    markAsReverted m id = m ∧ markAsRestored m id = m ∧ clearChange m id = m := by
  rw [getChange] at h
  refine ⟨?_, ?_, ?_⟩
  · rw [markAsReverted, h]
  · rw [markAsRestored, h]
  · exact alDelete_of_none h

/-- Witness for C10 on a one-entry ledger and an absent id. -/
theorem claim_C10_witness :
    getChange ledgerSample "other" = none
    ∧ (markAsReverted ledgerSample "other" = ledgerSample
      ∧ markAsRestored ledgerSample "other" = ledgerSample
      ∧ clearChange ledgerSample "other" = ledgerSample) :=
  ⟨by decide, claim_C10 ledgerSample "other" (by decide)⟩


theorem digitChar_ne_underscore (n : Nat) : Nat.digitChar n ≠ '_' := by
  rcases Nat.lt_or_ge n 16 with h | h
  · interval_cases n <;> decide
  · unfold Nat.digitChar
    iterate 16 rw [if_neg (by omega)]
    decide

theorem toDigitsCore_acc (b : Nat) (f : Nat) :
    ∀ (n : Nat) (ds : List Char),
      Nat.toDigitsCore b f n ds = Nat.toDigitsCore b f n [] ++ ds := by
  induction f with
  | zero => intro n ds; simp [Nat.toDigitsCore]
  | succ f ih =>
    intro n ds
    simp only [Nat.toDigitsCore]
    by_cases h : n / b = 0
    · simp [h]
    · simp only [h, if_false]
      rw [ih (n / b) (Nat.digitChar (n % b) :: ds), ih (n / b) [Nat.digitChar (n % b)]]
      simp

theorem mem_toDigitsCore {b f n : Nat} {ds : List Char} {c : Char}
    (h : c ∈ Nat.toDigitsCore b f n ds) : c ∈ ds ∨ ∃ m, c = Nat.digitChar m := by
  induction f generalizing n ds with
  | zero => simp [Nat.toDigitsCore] at h; exact Or.inl h
  | succ f ih =>
    simp only [Nat.toDigitsCore] at h
    by_cases hd : n / b = 0
    · rw [if_pos hd] at h
      simp at h
      rcases h with rfl | h
      · exact Or.inr ⟨n % b, rfl⟩
      · exact Or.inl h
    · rw [if_neg hd] at h
      rcases ih h with h2 | h2
      · simp at h2
        rcases h2 with rfl | h2
        · exact Or.inr ⟨n % b, rfl⟩
        · exact Or.inl h2
      · exact Or.inr h2

theorem repr_no_underscore (n : Nat) : '_' ∉ (Nat.repr n).data := by
  intro hmem
  have : (Nat.repr n).data = Nat.toDigitsCore 10 (n + 1) n [] := rfl
  rw [this] at hmem
  rcases mem_toDigitsCore hmem with h | ⟨m, hm⟩
  · simp at h
  · exact digitChar_ne_underscore m hm.symm

theorem digitsVal_append_digit (cs : List Char) (c : Char) :
    digitsVal (cs ++ [c]) = 10 * digitsVal cs + (c.toNat - 48) := by
  simp [digitsVal, List.foldl_append]

theorem digitChar_val {m : Nat} (hm : m < 10) :
    (Nat.digitChar m).toNat - 48 = m := by
  interval_cases m <;> rfl

theorem toDigitsCore_val (f : Nat) :
    ∀ n : Nat, n < 10 ^ f → digitsVal (Nat.toDigitsCore 10 f n []) = n := by
  induction f with
  | zero =>
    intro n hn
    interval_cases n
    rfl
  | succ f ih =>
    intro n hn
    simp only [Nat.toDigitsCore]
    have hv := digitChar_val (show n % 10 < 10 from Nat.mod_lt _ (by norm_num))
    by_cases hd : n / 10 = 0
    · rw [if_pos hd]
      have hn10 : n < 10 := by omega
      simp only [digitsVal, List.foldl_cons, List.foldl_nil, Nat.mul_zero, Nat.zero_add]
      omega
    · rw [if_neg hd]
      rw [toDigitsCore_acc]
      rw [digitsVal_append_digit]
      have hdiv : n / 10 < 10 ^ f := by
        rw [pow_succ] at hn
        omega
      rw [ih (n / 10) hdiv]
      omega

theorem repr_injective {n1 n2 : Nat} (h : Nat.repr n1 = Nat.repr n2) : n1 = n2 := by
  have h1 : digitsVal (Nat.repr n1).data = n1 := by
    have : (Nat.repr n1).data = Nat.toDigitsCore 10 (n1 + 1) n1 [] := rfl
    rw [this]
    exact toDigitsCore_val (n1 + 1) n1
      (lt_of_lt_of_le (Nat.lt_pow_self (by norm_num) n1)
        (Nat.pow_le_pow_right (by norm_num) (Nat.le_succ n1)))
  have h2 : digitsVal (Nat.repr n2).data = n2 := by
    have : (Nat.repr n2).data = Nat.toDigitsCore 10 (n2 + 1) n2 [] := rfl
    rw [this]
    exact toDigitsCore_val (n2 + 1) n2
      (lt_of_lt_of_le (Nat.lt_pow_self (by norm_num) n2)
        (Nat.pow_le_pow_right (by norm_num) (Nat.le_succ n2)))
  rw [← h1, ← h2, h]


theorem underscore_append_inj :
    ∀ {d1 d2 r1 r2 : List Char}, '_' ∉ d1 → '_' ∉ d2 →
      d1 ++ '_' :: r1 = d2 ++ '_' :: r2 → d1 = d2 ∧ r1 = r2 := by
  intro d1
  induction d1 with
  | nil =>
    intro d2 r1 r2 h1 h2 heq
    cases d2 with
    | nil => simpa using heq
    | cons c d2 =>
      simp at heq
      exact absurd (by simp [← heq.1]) h2
  | cons c d1 ih =>
    intro d2 r1 r2 h1 h2 heq
    cases d2 with
    | nil =>
      simp at heq
      exact absurd (by simp [heq.1]) h1
    | cons c2 d2 =>
      simp only [List.cons_append, List.cons.injEq] at heq
      obtain ⟨rfl, heq⟩ := heq
      have := ih (fun hm => h1 (by simp [hm])) (fun hm => h2 (by simp [hm])) heq
      exact ⟨by simp [this.1], this.2⟩

theorem mkId_inj {t1 t2 : Nat} {p1 p2 : String}
    (h : Nat.repr t1 ++ "_" ++ p1 = Nat.repr t2 ++ "_" ++ p2) :
    t1 = t2 ∧ p1 = p2 := by
  have hd : (Nat.repr t1).data ++ '_' :: p1.data =
      (Nat.repr t2).data ++ '_' :: p2.data := by
    have := congrArg String.data h
    simpa [String.data_append] using this
  obtain ⟨hdig, hp⟩ := underscore_append_inj (repr_no_underscore t1) (repr_no_underscore t2) hd
  exact ⟨repr_injective (String.ext hdig), String.ext hp⟩

/-- C8 (amended): `recordChange` stores the entry under the id
`` `${timestamp}_${filePath}` `` and returns it, and `getChange` immediately
afterwards returns exactly that entry; two calls are assigned distinct ids
whenever their timestamps or file paths differ (the id is injective in the
`(timestamp, filePath)` pair), and then the second call leaves the ledger
unchanged at the first id.  Freshness fails only when both the millisecond
timestamp and the path coincide — see the counterexample. -/
theorem claim_C8 (m m2 : ChangeMap) (t1 t2 : Nat) (p1 p2 : String)
    (op1 op2 : FileOp) (oc1 oc2 : Option String) (nc1 nc2 : String)
    (h : t1 ≠ t2 ∨ p1 ≠ p2) :
    getChange (recordChange m t1 p1 op1 oc1 nc1).2 ((recordChange m t1 p1 op1 oc1 nc1).1).id
        = some (recordChange m t1 p1 op1 oc1 nc1).1
    ∧ ((recordChange m t1 p1 op1 oc1 nc1).1).id ≠ ((recordChange m2 t2 p2 op2 oc2 nc2).1).id
    ∧ getChange (recordChange m2 t2 p2 op2 oc2 nc2).2 ((recordChange m t1 p1 op1 oc1 nc1).1).id
        = getChange m2 ((recordChange m t1 p1 op1 oc1 nc1).1).id := by
  refine ⟨?_, ?_, ?_⟩
  · rw [recordChange, getChange]
    simp [alGet_alSet]
  · rw [recordChange, recordChange]
    simp only
    intro heq
    rcases mkId_inj heq with ⟨ht, hp⟩
    rcases h with h | h
    · exact h ht
    · exact h hp
  · rw [recordChange, recordChange, getChange, getChange]
    simp only
    rw [alGet_alSet, if_neg]
    intro heq
    rcases mkId_inj heq with ⟨ht, hp⟩
    rcases h with h | h
    · exact h ht.symm
    · exact h hp.symm


/-- Witness for C8 at two calls with different timestamps and paths. -/
theorem claim_C8_witness :
    getChange (recordChange [] 1 "a.md" .write none "x").2
        ((recordChange [] 1 "a.md" .write none "x").1).id
        = some (recordChange [] 1 "a.md" .write none "x").1
    ∧ ((recordChange [] 1 "a.md" .write none "x").1).id
        ≠ ((recordChange [] 2 "b.md" .write none "y").1).id
    ∧ getChange (recordChange [] 2 "b.md" .write none "y").2
        ((recordChange [] 1 "a.md" .write none "x").1).id
        = getChange [] ((recordChange [] 1 "a.md" .write none "x").1).id :=
  claim_C8 [] [] 1 2 "a.md" "b.md" .write .write none none "x" "y" (by decide)

/-- C8 counterexample: two `recordChange` calls in the same millisecond for
the same path get the same id (`"5_a.md"`), and the second overwrites the
first entry — `getChange` at that id now yields the second `newContent`. -/
theorem claim_C8_cex :
    ((recordChange [] 5 "a.md" .write none "x").1).id
      = ((recordChange (recordChange [] 5 "a.md" .write none "x").2
          5 "a.md" .write none "y").1).id
    ∧ (getChange (recordChange (recordChange [] 5 "a.md" .write none "x").2
          5 "a.md" .write none "y").2
        ((recordChange [] 5 "a.md" .write none "x").1).id).map
          (fun c => c.newContent) = some "y"
    ∧ ((recordChange [] 5 "a.md" .write none "x").1).newContent = "x" := by
  refine ⟨by decide, by decide, by decide⟩

/-- C5: revert and restore are atomic with respect to the ledger flag: the
resulting ledger is `markAsReverted`/`markAsRestored` exactly when the call
returns `true`, and on `false` (a thrown vault operation) the ledger is left
untouched and an error notice is surfaced, so the action stays retryable. -/
theorem claim_C5 (env : VaultEnv) (m : ChangeMap) (fc : FileChange) :
    ((revertChange env m fc).2.1
        = if (revertChange env m fc).1 then markAsReverted m fc.id else m)
    ∧ ((revertChange env m fc).1 = false →
        ∃ msg, (revertChange env m fc).2.2 = ["Error reverting change: " ++ msg])
    ∧ ((restoreChange env m fc).2.1
        = if (restoreChange env m fc).1 then markAsRestored m fc.id else m)
    ∧ ((restoreChange env m fc).1 = false →
        ∃ msg, (restoreChange env m fc).2.2 = ["Error restoring change: " ++ msg]) := by
  obtain ⟨lk, op⟩ := env
  cases lk <;> cases op <;> rcases hoc : fc.oldContent with _ | oldC <;>
    simp [revertChange, restoreChange, hoc]

/-- Witness for C5 with a vault whose operation throws. -/
theorem claim_C5_witness :
    ((revertChange ⟨.tfile, .throwErr "disk full"⟩ ledgerSample fcSample).2.1
        = if (revertChange ⟨.tfile, .throwErr "disk full"⟩ ledgerSample fcSample).1
          then markAsReverted ledgerSample fcSample.id else ledgerSample)
    ∧ (∃ msg, (revertChange ⟨.tfile, .throwErr "disk full"⟩ ledgerSample fcSample).2.2
        = ["Error reverting change: " ++ msg])
    ∧ (∃ msg, (restoreChange ⟨.tfile, .throwErr "disk full"⟩ ledgerSample fcSample).2.2
        = ["Error restoring change: " ++ msg]) := by
  have h := claim_C5 ⟨.tfile, .throwErr "disk full"⟩ ledgerSample fcSample
  exact ⟨h.1, h.2.1 (by decide), h.2.2.2 (by decide)⟩

/-! ## Reducer claims C9, C6, C7 -/

theorem captureBefore_fields (td : ToolData) (logs : List String) (name : String)
    (input : ToolInput) (rb : ReadResult) :
    ((captureBefore td logs name input rb).1).name = td.name
    ∧ ((captureBefore td logs name input rb).1).input = td.input
    ∧ ((captureBefore td logs name input rb).1).id = td.id
    ∧ ((captureBefore td logs name input rb).1).element = td.element
    ∧ ((captureBefore td logs name input rb).1).result = td.result
    ∧ ((captureBefore td logs name input rb).1).fileChange = td.fileChange := by
  unfold captureBefore
  split
  · split
    · split
      · split <;> simp
      · simp
    · simp
  · simp

/-- C9 (amended): when a second tool-invocation event arrives for an id
that already has a record, the later event's `input` wins but the record's
`name` keeps its earlier value (only `input` is updated on merge); no error
is raised — the handler returns normally with the merged record. -/
theorem claim_C9 (s : ViewState) (tid synth n2 : String) (inp : ToolInput)
    (rb : ReadResult) (td : ToolData) (htd : alGet s.toolUses tid = some td)
    (hne : tid ≠ "") :
    (alGet (stepToolUse s (some tid) synth n2 inp rb).toolUses tid).map
      (fun r => (r.name, r.input)) = some (td.name, inp) := by
  have hf := captureBefore_fields { td with input := inp } s.logs n2 inp rb
  rw [stepToolUse]
  simp only [if_neg hne]
  rw [stepToolUseCore]
  simp only [htd]
  split <;> simp [alGet_alSet, hf.1, hf.2.1]

/-- Witness for C9: a second invocation for id `t1` with name `Beta`. -/
theorem claim_C9_witness :
    alGet (run [AgentEvent.toolUse (some "t1") "s1" "Alpha" ⟨none, 1⟩ .notFile]).toolUses "t1"
      = some tdSample
    ∧ (alGet (stepToolUse (run [AgentEvent.toolUse (some "t1") "s1" "Alpha" ⟨none, 1⟩ .notFile])
          (some "t1") "s2" "Beta" ⟨none, 2⟩ .notFile).toolUses "t1").map
        (fun r => (r.name, r.input)) = some (tdSample.name, ⟨none, 2⟩) :=
  ⟨by decide,
    claim_C9 (run [AgentEvent.toolUse (some "t1") "s1" "Alpha" ⟨none, 1⟩ .notFile])
      "t1" "s2" "Beta" ⟨none, 2⟩ .notFile tdSample (by decide) (by decide)⟩

/-- C9 counterexample: after `toolUse(t1, "Alpha", in1)` then
`toolUse(t1, "Beta", in2)` the single record holds the SECOND input but the
FIRST name `"Alpha"` — the later event's name does not win. -/
theorem claim_C9_cex :
    (alGet (run [AgentEvent.toolUse (some "t1") "s1" "Alpha" ⟨none, 1⟩ .notFile,
        AgentEvent.toolUse (some "t1") "s2" "Beta" ⟨none, 2⟩ .notFile]).toolUses "t1").map
      (fun td => (td.name, td.input)) = some ("Alpha", ⟨none, 2⟩)
    ∧ "Alpha" ≠ "Beta" :=
  ⟨by decide, by decide⟩

/-- C6 (amended): when reading the pre-operation content of a Write/Edit
tool's file throws, the handler's `catch` sets `fileStateBefore` to the
explicit `null` value (the same value used for "file did not exist") rather
than leaving it unset, logs the failure, and returns normally — the
reduction continues. -/
theorem claim_C6 (s : ViewState) (tid synth nm fp : String) (pay : Nat)
    (hnm : nm = "Write" ∨ nm = "Edit") (hfp : fp ≠ "") (htid : tid ≠ "")
    (habs : alGet s.toolUses tid = none) :
    (alGet (stepToolUse s (some tid) synth nm ⟨some fp, pay⟩ .readThrows).toolUses tid).map
        (fun td => td.fileStateBefore) = some (some none)
    ∧ (stepToolUse s (some tid) synth nm ⟨some fp, pay⟩ .readThrows).logs
        = s.logs ++ ["[ObsidianAgent] Could not read file before change"] := by
  rcases hnm with rfl | rfl <;>
    (rw [stepToolUse]
     simp only [if_neg htid]
     rw [stepToolUseCore]
     simp only [habs]
     simp [captureBefore, hfp, alGet_alSet])

/-- Witness for C6 from the initial state. -/
theorem claim_C6_witness :
    (alGet (stepToolUse initState (some "t") "syn" "Write" ⟨some "f.md", 3⟩
        .readThrows).toolUses "t").map (fun td => td.fileStateBefore)
      = some (some none)
    ∧ (stepToolUse initState (some "t") "syn" "Write" ⟨some "f.md", 3⟩ .readThrows).logs
      = initState.logs ++ ["[ObsidianAgent] Could not read file before change"] :=
  claim_C6 initState "t" "syn" "Write" "f.md" 3 (Or.inl rfl) (by decide) (by decide) (by decide)

/-- C6 counterexample: a throwing before-read leaves `fileStateBefore` set
to `null` (`some none`), not unset (`none`), and the subsequent result event
then records a change and sets `fileChange` (`linkedChange`), contradicting
the claim that both stay unset. -/
theorem claim_C6_cex :
    (alGet (run [AgentEvent.toolUse (some "t") "syn" "Write" ⟨some "f.md", 0⟩
        .readThrows]).toolUses "t").map (fun td => td.fileStateBefore)
      = some (some none)
    ∧ (run [AgentEvent.toolUse (some "t") "syn" "Write" ⟨some "f.md", 0⟩ .readThrows]).logs
      = ["[ObsidianAgent] Could not read file before change"]
    ∧ (alGet (run [AgentEvent.toolUse (some "t") "syn" "Write" ⟨some "f.md", 0⟩ .readThrows,
        AgentEvent.toolResult "t" "ok" 7 (.found "new")]).toolUses "t").map
        (fun td => td.fileChange.isSome) = some true :=
  ⟨by decide, by decide, by decide⟩

/-- C7 (amended): the `operation` stored in a `FileChange` is exactly the
operation passed by the caller — in the reducer, `write` iff the tool name
is `Write`, `edit` otherwise — and is not derived from `oldContent`; an
entry with `oldContent = null` and operation `edit` does occur (an `Edit`
whose file was unreadable before the result). -/
theorem claim_C7 :
    (∀ (m : ChangeMap) (t : Nat) (p : String) (op : FileOp)
        (oc : Option String) (nc : String),
      ((recordChange m t p op oc nc).1).operation = op
      ∧ ((recordChange m t p op oc nc).1).oldContent = oc)
    ∧ (getChange (run [AgentEvent.toolUse (some "t") "syn" "Edit" ⟨some "n.md", 0⟩ .notFile,
        AgentEvent.toolResult "t" "done" 5 (.found "new")]).tracker "5_n.md").map
      (fun c => (c.oldContent, decide (c.operation = FileOp.edit))) = some (none, true) :=
  ⟨fun m t p op oc nc => ⟨rfl, rfl⟩, by decide⟩

/-- C7 counterexample: `Edit` on a file that was not readable before
produces a ledger entry with `oldContent = none` whose operation is NOT
`write` (Create) — refuting `oldContent == None ⇒ operation == Create`. -/
theorem claim_C7_cex :
    (getChange (run [AgentEvent.toolUse (some "t") "syn" "Edit" ⟨some "n.md", 0⟩ .notFile,
        AgentEvent.toolResult "t" "done" 5 (.found "new")]).tracker "5_n.md").map
      (fun c => (c.oldContent, decide (c.operation = FileOp.write))) = some (none, false) := by
  decide


theorem alGet_eq_none_iff {α : Type} {m : List (String × α)} {k : String} :
    alGet m k = none ↔ k ∉ m.map Prod.fst := by
  induction m with
  | nil => simp [alGet]
  | cons p m ih =>
    obtain ⟨k0, w⟩ := p
    by_cases h0 : k0 = k
    · subst h0
      simp [alGet]
    · simp [alGet, if_neg h0, ih, h0, Ne.symm h0]

theorem keys_alSet_some {α : Type} {m : List (String × α)} {key : String} {w : α}
    (h : alGet m key = some w) (v : α) :
    (alSet m key v).map Prod.fst = m.map Prod.fst := by
  induction m with
  | nil => simp [alGet] at h
  | cons p m ih =>
    obtain ⟨k0, w0⟩ := p
    by_cases h0 : k0 = key
    · subst h0
      simp [alSet]
    · simp only [alGet, if_neg h0] at h
      simp [alSet, if_neg h0, ih h]

theorem keys_alSet_none {α : Type} {m : List (String × α)} {key : String}
    (h : alGet m key = none) (v : α) :
    (alSet m key v).map Prod.fst = m.map Prod.fst ++ [key] := by
  induction m with
  | nil => simp [alSet]
  | cons p m ih =>
    obtain ⟨k0, w0⟩ := p
    by_cases h0 : k0 = key
    · subst h0
      simp [alGet] at h
    · simp only [alGet, if_neg h0] at h
      simp [alSet, if_neg h0, ih h]

theorem ne_key_of_alGet_none {α : Type} {m : List (String × α)} {k : String}
    (h : alGet m k = none) {p : String × α} (hp : p ∈ m) : p.1 ≠ k := by
  intro hk
  rw [alGet_eq_none_iff] at h
  exact h (by simpa [hk] using List.mem_map_of_mem Prod.fst hp)

theorem mem_alSet_iff {α : Type} {m : List (String × α)}
    (hnd : (m.map Prod.fst).Nodup) (key : String) (v : α) (p : String × α) :
    p ∈ alSet m key v ↔ p = (key, v) ∨ (p ∈ m ∧ p.1 ≠ key) := by
  induction m with
  | nil => simp [alSet]
  | cons q m ih =>
    obtain ⟨k0, w0⟩ := q
    simp only [List.map_cons, List.nodup_cons] at hnd
    by_cases h0 : k0 = key
    · subst h0
      simp only [alSet, if_true, eq_self_iff_true, if_pos, List.mem_cons]
      constructor
      · rintro (rfl | hp)
        · exact Or.inl rfl
        · refine Or.inr ⟨Or.inr hp, ?_⟩
          intro hk
          exact hnd.1 (by simpa [← hk] using List.mem_map_of_mem Prod.fst hp)
      · rintro (rfl | ⟨hp, hne⟩)
        · exact Or.inl rfl
        · rcases hp with rfl | hp
          · exact absurd rfl hne
          · exact Or.inr hp
    · simp only [alSet, if_neg h0, List.mem_cons, ih hnd.2]
      constructor
      · rintro (rfl | rfl | ⟨hp, hne⟩)
        · exact Or.inr ⟨Or.inl rfl, fun hh => h0 hh⟩
        · exact Or.inl rfl
        · exact Or.inr ⟨Or.inr hp, hne⟩
      · rintro (rfl | ⟨hp, hne⟩)
        · exact Or.inr (Or.inl rfl)
        · rcases hp with rfl | hp
          · exact Or.inl rfl
          · exact Or.inr (Or.inr ⟨hp, hne⟩)


theorem mem_replaceBlock {bs : List Block} {h : Nat} {nb b2 : Block}
    (hb : b2 ∈ replaceBlock bs h nb) : b2 = nb ∨ (b2 ∈ bs ∧ b2.handle ≠ h) := by
  rw [replaceBlock] at hb
  rcases List.mem_map.mp hb with ⟨b, hbmem, hbeq⟩
  by_cases hh : b.handle = h
  · rw [if_pos hh] at hbeq
    exact Or.inl hbeq.symm
  · rw [if_neg hh] at hbeq
    subst hbeq
    exact Or.inr ⟨hbmem, hh⟩

theorem mem_replaceBlock_self {bs : List Block} {h : Nat} {nb b : Block}
    (hb : b ∈ bs) (hh : b.handle = h) : nb ∈ replaceBlock bs h nb := by
  rw [replaceBlock]
  exact List.mem_map.mpr ⟨b, hb, by rw [if_pos hh]⟩

theorem mem_replaceBlock_of_ne {bs : List Block} {h : Nat} {nb b : Block}
    (hb : b ∈ bs) (hh : b.handle ≠ h) : b ∈ replaceBlock bs h nb := by
  rw [replaceBlock]
  exact List.mem_map.mpr ⟨b, hb, by rw [if_neg hh]⟩

theorem replaceBlock_map_toolId {bs : List Block} {h : Nat} {nb : Block}
    (hsame : ∀ b ∈ bs, b.handle = h → b.toolId = nb.toolId) :
    (replaceBlock bs h nb).map Block.toolId = bs.map Block.toolId := by
  rw [replaceBlock, List.map_map]
  apply List.map_congr_left
  intro b hb
  by_cases hh : b.handle = h
  · simp [hh, (hsame b hb hh).symm]
  · simp [hh]

theorem replaceBlock_handle_nodup {bs : List Block} {h H : Nat} {nb : Block}
    (hnd : (bs.map Block.handle).Nodup) (hlt : ∀ b ∈ bs, b.handle < H)
    (hnb : nb.handle = H) :
    ((replaceBlock bs h nb).map Block.handle).Nodup := by
  induction bs with
  | nil => simp [replaceBlock]
  | cons b bs ih =>
    simp only [List.map_cons, List.nodup_cons] at hnd
    have hlt2 : ∀ b2 ∈ bs, b2.handle < H := fun b2 hb2 => hlt b2 (by simp [hb2])
    by_cases hh : b.handle = h
    · have hrest : List.map (fun b2 => if b2.handle = h then nb else b2) bs = bs := by
        have hpt : ∀ b2 ∈ bs, (if b2.handle = h then nb else b2) = id b2 := by
          intro b2 hb2
          have hb2h : b2.handle ≠ h := by
            intro hb2h
            exact hnd.1 (by rw [hh, ← hb2h]; exact List.mem_map_of_mem _ hb2)
          rw [if_neg hb2h]
          rfl
        rw [List.map_congr_left hpt, List.map_id]
      rw [replaceBlock]
      simp only [List.map_cons, if_pos hh]
      rw [hrest]
      simp only [List.nodup_cons]
      refine ⟨?_, hnd.2⟩
      intro hmem
      rcases List.mem_map.mp hmem with ⟨b2, hb2, hb2eq⟩
      have := hlt2 b2 hb2
      omega
    · rw [replaceBlock]
      simp only [List.map_cons, if_neg hh, List.nodup_cons]
      constructor
      · intro hmem
        rw [List.map_map] at hmem
        rcases List.mem_map.mp hmem with ⟨b2, hb2, hb2eq⟩
        simp only [Function.comp] at hb2eq
        by_cases h2 : b2.handle = h
        · rw [if_pos h2] at hb2eq
          have := hlt b (by simp)
          rw [hnb] at hb2eq
          omega
        · rw [if_neg h2] at hb2eq
          exact hnd.1 (by rw [← hb2eq]; exact List.mem_map_of_mem _ hb2)
      · have := ih hnd.2 hlt2
        rw [replaceBlock] at this
        exact this

theorem updateProgressText_fields {bs : List Block} {h e : Nat} {b2 : Block}
    (hb : b2 ∈ updateProgressText bs h e) :
    ∃ b ∈ bs, b2.toolId = b.toolId ∧ b2.handle = b.handle := by
  rw [updateProgressText] at hb
  rcases List.mem_map.mp hb with ⟨b, hbmem, hbeq⟩
  refine ⟨b, hbmem, ?_⟩
  by_cases hh : b.handle = h ∧ b.hasResult = false
  · rw [if_pos hh] at hbeq
    subst hbeq
    exact ⟨rfl, rfl⟩
  · rw [if_neg hh] at hbeq
    subst hbeq
    exact ⟨rfl, rfl⟩

theorem updateProgressText_mem {bs : List Block} {h e : Nat} {b : Block} (hb : b ∈ bs) :
    ∃ b2 ∈ updateProgressText bs h e, b2.toolId = b.toolId ∧ b2.handle = b.handle := by
  rw [updateProgressText]
  refine ⟨_, List.mem_map_of_mem _ hb, ?_⟩
  by_cases hh : b.handle = h ∧ b.hasResult = false
  · rw [if_pos hh]
    exact ⟨rfl, rfl⟩
  · rw [if_neg hh]
    exact ⟨rfl, rfl⟩

theorem updateProgressText_map_toolId (bs : List Block) (h e : Nat) :
    (updateProgressText bs h e).map Block.toolId = bs.map Block.toolId := by
  rw [updateProgressText, List.map_map]
  apply List.map_congr_left
  intro b hb
  by_cases hh : b.handle = h ∧ b.hasResult = false
  · simp [hh]
  · simp [if_neg hh]

theorem updateProgressText_map_handle (bs : List Block) (h e : Nat) :
    (updateProgressText bs h e).map Block.handle = bs.map Block.handle := by
  rw [updateProgressText, List.map_map]
  apply List.map_congr_left
  intro b hb
  by_cases hh : b.handle = h ∧ b.hasResult = false
  · simp [hh]
  · simp [if_neg hh]


theorem inv_updateProgress {s : ViewState} (hInv : Inv s) (h e : Nat) :
    Inv { s with blocks := updateProgressText s.blocks h e } := by
  obtain ⟨h1, h2, h3, h4, h5, h6, h7⟩ := hInv
  refine ⟨h1, h2, ?_, ?_, ?_, ?_, ?_⟩
  · rw [show ({ s with blocks := updateProgressText s.blocks h e } : ViewState).blocks
      = updateProgressText s.blocks h e from rfl, updateProgressText_map_toolId]
    exact h3
  · rw [show ({ s with blocks := updateProgressText s.blocks h e } : ViewState).blocks
      = updateProgressText s.blocks h e from rfl, updateProgressText_map_handle]
    exact h4
  · intro b hb
    obtain ⟨b0, hb0, ht, hh⟩ := updateProgressText_fields hb
    rw [hh]
    exact h5 b0 hb0
  · intro b hb
    obtain ⟨b0, hb0, ht, hh⟩ := updateProgressText_fields hb
    obtain ⟨td, htd, hel⟩ := h6 b0 hb0
    exact ⟨td, by rw [ht]; exact htd, by rw [hh]; exact hel⟩
  · intro p hp hx hel
    obtain ⟨b0, hb0, ht0, hh0⟩ := h7 p hp hx hel
    obtain ⟨b2, hb2, ht2, hh2⟩ := updateProgressText_mem hb0
    exact ⟨b2, hb2, by rw [ht2, ht0], by rw [hh2, hh0]⟩

theorem inv_append {s : ViewState} (hInv : Inv s) {tid : String} {td2 : ToolData}
    (habs : alGet s.toolUses tid = none) (hid : td2.id = tid)
    (hel : td2.element = some s.nextHandle) (tr : ChangeMap) (lg : List String) :
    Inv { s with toolUses := alSet s.toolUses tid td2,
                 blocks := s.blocks ++ [mkBlock s.nextHandle td2],
                 nextHandle := s.nextHandle + 1, tracker := tr, logs := lg } := by
  obtain ⟨h1, h2, h3, h4, h5, h6, h7⟩ := hInv
  have hnotk : tid ∉ s.toolUses.map Prod.fst := alGet_eq_none_iff.mp habs
  have hnoblk : ∀ b ∈ s.blocks, b.toolId ≠ tid := by
    intro b hb hbt
    obtain ⟨td, htd, _⟩ := h6 b hb
    rw [hbt, habs] at htd
    exact Option.noConfusion htd
  refine ⟨?_, ?_, ?_, ?_, ?_, ?_, ?_⟩
  · rw [show ({ s with toolUses := alSet s.toolUses tid td2, blocks := s.blocks ++ [mkBlock s.nextHandle td2], nextHandle := s.nextHandle + 1, tracker := tr, logs := lg } : ViewState).toolUses = alSet s.toolUses tid td2 from rfl]
    rw [keys_alSet_none habs]
    rw [List.nodup_append]
    exact ⟨h1, List.nodup_singleton tid, by intro a ha hb; simp at hb; subst hb; exact hnotk ha⟩
  · intro p hp
    rcases (mem_alSet_iff h1 tid td2 p).mp hp with rfl | ⟨hp2, _⟩
    · exact hid
    · exact h2 p hp2
  · rw [show ({ s with toolUses := alSet s.toolUses tid td2, blocks := s.blocks ++ [mkBlock s.nextHandle td2], nextHandle := s.nextHandle + 1, tracker := tr, logs := lg } : ViewState).blocks = s.blocks ++ [mkBlock s.nextHandle td2] from rfl]
    rw [List.map_append, List.nodup_append]
    refine ⟨h3, by simp, ?_⟩
    intro a ha hb
    simp [mkBlock, hid] at hb
    subst hb
    rcases List.mem_map.mp ha with ⟨b, hbmem, rfl⟩
    exact hnoblk b hbmem rfl
  · rw [show ({ s with toolUses := alSet s.toolUses tid td2, blocks := s.blocks ++ [mkBlock s.nextHandle td2], nextHandle := s.nextHandle + 1, tracker := tr, logs := lg } : ViewState).blocks = s.blocks ++ [mkBlock s.nextHandle td2] from rfl]
    rw [List.map_append, List.nodup_append]
    refine ⟨h4, by simp, ?_⟩
    intro a ha hb
    simp [mkBlock] at hb
    subst hb
    rcases List.mem_map.mp ha with ⟨b, hbmem, hbeq⟩
    have := h5 b hbmem
    omega
  · intro b hb
    show b.handle < s.nextHandle + 1
    rcases List.mem_append.mp hb with hb | hb
    · have := h5 b hb
      omega
    · simp at hb
      subst hb
      simp [mkBlock]
  · intro b hb
    rcases List.mem_append.mp hb with hb | hb
    · obtain ⟨td, htd, hel2⟩ := h6 b hb
      refine ⟨td, ?_, hel2⟩
      rw [show ({ s with toolUses := alSet s.toolUses tid td2, blocks := s.blocks ++ [mkBlock s.nextHandle td2], nextHandle := s.nextHandle + 1, tracker := tr, logs := lg } : ViewState).toolUses = alSet s.toolUses tid td2 from rfl]
      rw [alGet_alSet, if_neg]
      · exact htd
      · intro hq
        exact hnoblk b hb hq.symm
    · simp at hb
      subst hb
      refine ⟨td2, ?_, ?_⟩
      · rw [show ({ s with toolUses := alSet s.toolUses tid td2, blocks := s.blocks ++ [mkBlock s.nextHandle td2], nextHandle := s.nextHandle + 1, tracker := tr, logs := lg } : ViewState).toolUses = alSet s.toolUses tid td2 from rfl]
        rw [show (mkBlock s.nextHandle td2).toolId = tid from hid]
        rw [alGet_alSet, if_pos rfl]
      · rw [hel]
        rfl
  · intro p hp hx hel2
    rcases (mem_alSet_iff h1 tid td2 p).mp hp with rfl | ⟨hp2, hne⟩
    · refine ⟨mkBlock s.nextHandle td2, by simp, hid, ?_⟩
      rw [hel] at hel2
      simp at hel2
      rw [← hel2]
      rfl
    · obtain ⟨b, hb, hbt, hbh⟩ := h7 p hp2 hx hel2
      exact ⟨b, List.mem_append_left _ hb, hbt, hbh⟩


theorem inv_set_keep {s : ViewState} (hInv : Inv s) {tid : String} {td td2 : ToolData}
    (htd : alGet s.toolUses tid = some td) (hid : td2.id = tid)
    (hel : td2.element = td.element) (tr : ChangeMap) (lg : List String) :
    Inv { s with toolUses := alSet s.toolUses tid td2, tracker := tr, logs := lg } := by
  obtain ⟨h1, h2, h3, h4, h5, h6, h7⟩ := hInv
  refine ⟨?_, ?_, h3, h4, h5, ?_, ?_⟩
  · rw [show ({ s with toolUses := alSet s.toolUses tid td2, tracker := tr, logs := lg } : ViewState).toolUses = alSet s.toolUses tid td2 from rfl]
    rw [keys_alSet_some htd]
    exact h1
  · intro p hp
    rcases (mem_alSet_iff h1 tid td2 p).mp hp with rfl | ⟨hp2, _⟩
    · exact hid
    · exact h2 p hp2
  · intro b hb
    obtain ⟨td3, htd3, hel3⟩ := h6 b hb
    by_cases hq : b.toolId = tid
    · rw [hq, htd] at htd3
      injection htd3 with htd3
      subst htd3
      refine ⟨td2, ?_, ?_⟩
      · rw [show ({ s with toolUses := alSet s.toolUses tid td2, tracker := tr, logs := lg } : ViewState).toolUses = alSet s.toolUses tid td2 from rfl]
        rw [hq, alGet_alSet, if_pos rfl]
      · rw [hel]
        exact hel3
    · refine ⟨td3, ?_, hel3⟩
      rw [show ({ s with toolUses := alSet s.toolUses tid td2, tracker := tr, logs := lg } : ViewState).toolUses = alSet s.toolUses tid td2 from rfl]
      rw [alGet_alSet, if_neg (fun hq2 => hq hq2.symm)]
      exact htd3
  · intro p hp hx hel2
    rcases (mem_alSet_iff h1 tid td2 p).mp hp with rfl | ⟨hp2, hne⟩
    · rw [hel] at hel2
      exact h7 (tid, td) (alGet_mem htd) hx hel2
    · exact h7 p hp2 hx hel2

theorem inv_replace {s : ViewState} (hInv : Inv s) {tid : String} {td td2 : ToolData}
    {h : Nat} (htd : alGet s.toolUses tid = some td) (hid : td2.id = tid)
    (hel_old : td.element = some h) (hel_new : td2.element = some s.nextHandle)
    {nb : Block} (hnb_t : nb.toolId = tid) (hnb_h : nb.handle = s.nextHandle)
    (tr : ChangeMap) (lg : List String) :
    Inv { s with toolUses := alSet s.toolUses tid td2,
                 blocks := replaceBlock s.blocks h nb,
                 nextHandle := s.nextHandle + 1, tracker := tr, logs := lg } := by
  obtain ⟨h1, h2, h3, h4, h5, h6, h7⟩ := hInv
  obtain ⟨b0, hb0, hb0t, hb0h⟩ := h7 (tid, td) (alGet_mem htd) h hel_old
  have honlyb0 : ∀ b ∈ s.blocks, b.handle = h → b = b0 := by
    intro b hb hbh
    exact List.inj_on_of_nodup_map h4 hb hb0 (by rw [hbh, hb0h])
  refine ⟨?_, ?_, ?_, ?_, ?_, ?_, ?_⟩
  · rw [show ({ s with toolUses := alSet s.toolUses tid td2, blocks := replaceBlock s.blocks h nb, nextHandle := s.nextHandle + 1, tracker := tr, logs := lg } : ViewState).toolUses = alSet s.toolUses tid td2 from rfl]
    rw [keys_alSet_some htd]
    exact h1
  · intro p hp
    rcases (mem_alSet_iff h1 tid td2 p).mp hp with rfl | ⟨hp2, _⟩
    · exact hid
    · exact h2 p hp2
  · rw [show ({ s with toolUses := alSet s.toolUses tid td2, blocks := replaceBlock s.blocks h nb, nextHandle := s.nextHandle + 1, tracker := tr, logs := lg } : ViewState).blocks = replaceBlock s.blocks h nb from rfl]
    rw [replaceBlock_map_toolId]
    · exact h3
    · intro b hb hbh
      rw [honlyb0 b hb hbh, hb0t, hnb_t]
  · rw [show ({ s with toolUses := alSet s.toolUses tid td2, blocks := replaceBlock s.blocks h nb, nextHandle := s.nextHandle + 1, tracker := tr, logs := lg } : ViewState).blocks = replaceBlock s.blocks h nb from rfl]
    exact replaceBlock_handle_nodup h4 h5 hnb_h
  · intro b hb
    show b.handle < s.nextHandle + 1
    rcases mem_replaceBlock hb with hbnb | ⟨hb2, _⟩
    · rw [hbnb, hnb_h]
      omega
    · have := h5 b hb2
      omega
  · intro b hb
    rcases mem_replaceBlock hb with hbnb | ⟨hb2, hbh⟩
    · refine ⟨td2, ?_, ?_⟩
      · rw [show ({ s with toolUses := alSet s.toolUses tid td2, blocks := replaceBlock s.blocks h nb, nextHandle := s.nextHandle + 1, tracker := tr, logs := lg } : ViewState).toolUses = alSet s.toolUses tid td2 from rfl]
        rw [hbnb, hnb_t, alGet_alSet, if_pos rfl]
      · rw [hbnb, hel_new, hnb_h]
    · obtain ⟨td3, htd3, hel3⟩ := h6 b hb2
      by_cases hq : b.toolId = tid
      · exfalso
        rw [hq, htd] at htd3
        injection htd3 with htd3
        subst htd3
        rw [hel_old] at hel3
        injection hel3 with hel3
        exact hbh hel3.symm
      · refine ⟨td3, ?_, hel3⟩
        rw [show ({ s with toolUses := alSet s.toolUses tid td2, blocks := replaceBlock s.blocks h nb, nextHandle := s.nextHandle + 1, tracker := tr, logs := lg } : ViewState).toolUses = alSet s.toolUses tid td2 from rfl]
        rw [alGet_alSet, if_neg (fun hq2 => hq hq2.symm)]
        exact htd3
  · intro p hp hx hel2
    rcases (mem_alSet_iff h1 tid td2 p).mp hp with rfl | ⟨hp2, hne⟩
    · rw [hel_new] at hel2
      injection hel2 with hel2
      refine ⟨nb, mem_replaceBlock_self hb0 hb0h, hnb_t, ?_⟩
      rw [hnb_h, hel2]
    · obtain ⟨b, hb, hbt, hbh⟩ := h7 p hp2 hx hel2
      have hbne : b.handle ≠ h := by
        intro hbh2
        have := honlyb0 b hb hbh2
        subst this
        exact hne (by rw [← hbt, hb0t])
      exact ⟨b, mem_replaceBlock_of_ne hb hbne, hbt, hbh⟩


theorem inv_stepProgress {s : ViewState} (hInv : Inv s) (tid tname : String) (e : Nat) :
    Inv (stepProgress s tid tname e) := by
  rw [stepProgress]
  split
  · split
    · exact inv_updateProgress hInv _ e
    · exact hInv
  · rename_i htd
    exact inv_append hInv htd rfl rfl s.tracker s.logs

theorem inv_stepToolUseCore {s : ViewState} (hInv : Inv s) (toolId name : String)
    (input : ToolInput) (rb : ReadResult) :
    Inv (stepToolUseCore s toolId name input rb) := by
  rw [stepToolUseCore]
  split
  · rename_i htd
    have hf := captureBefore_fields { id := toolId, name := name, input := input, isExpanded := false, result := none, element := none, fileChange := none, fileStateBefore := none } s.logs name input rb
    refine inv_append hInv htd ?_ rfl _ _
    exact hf.2.2.1
  · rename_i td htd
    have hid0 : td.id = toolId := hInv.2.1 (toolId, td) (alGet_mem htd)
    have hf := captureBefore_fields { td with input := input } s.logs name input rb
    simp only []
    split
    · rename_i h hrel
      have hel_old : td.element = some h := by
        rw [show td.element = ({ td with input := input } : ToolData).element from rfl,
          ← hf.2.2.2.1]
        exact hrel
      refine inv_replace hInv htd ?_ hel_old rfl ?_ rfl _ _
      · exact (hf.2.2.1).trans hid0
      · exact (hf.2.2.1).trans hid0
    · refine inv_set_keep hInv htd ?_ ?_ _ _
      · exact (hf.2.2.1).trans hid0
      · exact hf.2.2.2.1

theorem inv_stepToolUse {s : ViewState} (hInv : Inv s) (bid : Option String)
    (synth name : String) (input : ToolInput) (rb : ReadResult) :
    Inv (stepToolUse s bid synth name input rb) := by
  exact inv_stepToolUseCore hInv _ name input rb



theorem resultUpdate_fields (tr : ChangeMap) (lgs : List String) (td1 : ToolData)
    (now : Nat) (ra : ReadResult) :
    ((resultUpdate tr lgs td1 now ra).1).id = td1.id
    ∧ ((resultUpdate tr lgs td1 now ra).1).element = td1.element := by
  rw [resultUpdate]
  repeat' split
  all_goals simp

theorem inv_stepToolResult {s : ViewState} (hInv : Inv s) (tid content : String)
    (now : Nat) (ra : ReadResult) :
    Inv (stepToolResult s tid content now ra) := by
  rw [stepToolResult]
  split
  · exact hInv
  · rename_i td htd
    have hid0 : td.id = tid := hInv.2.1 (tid, td) (alGet_mem htd)
    have hrf := resultUpdate_fields s.tracker s.logs { td with result := some content } now ra
    simp only []
    split
    · rename_i h hrel
      have hel_old : td.element = some h := by
        rw [show td.element = ({ td with result := some content } : ToolData).element from rfl,
          ← hrf.2]
        exact hrel
      refine inv_replace hInv htd ?_ hel_old rfl ?_ rfl _ _
      · exact (hrf.1).trans hid0
      · exact (hrf.1).trans hid0
    · refine inv_set_keep hInv htd ?_ ?_ _ _
      · exact (hrf.1).trans hid0
      · exact hrf.2

theorem inv_step {s : ViewState} (hInv : Inv s) (ev : AgentEvent) :
    Inv (step s ev) := by
  cases ev with
  | toolProgress tid tname e => exact inv_stepProgress hInv tid tname e
  | toolUse bid synth name input rb => exact inv_stepToolUse hInv bid synth name input rb
  | toolResult tid content now ra => exact inv_stepToolResult hInv tid content now ra

theorem inv_initState : Inv initState := by
  refine ⟨?_, ?_, ?_, ?_, ?_, ?_, ?_⟩ <;> simp [initState, alGet]

theorem inv_run (evs : List AgentEvent) : Inv (run evs) := by
  rw [run]
  have key : ∀ (s : ViewState), Inv s → Inv (evs.foldl step s) := by
    induction evs with
    | nil => intro s hs; exact hs
    | cons e evs ih => intro s hs; exact ih (step s e) (inv_step hs e)
  exact key initState inv_initState


/-- C3: within one session, at most one `ToolUseRecord` exists per
tool-invocation id and at most one on-screen block per id, after any event
sequence (registry keys and block tool-ids are duplicate-free); and a
`ToolProgress` for an unseen id followed by a `ToolInvocation` for the same
id yields exactly one record and exactly one block, the record merged in
place with the invocation's input — never two records or two blocks. -/
theorem claim_C3 :
    (∀ evs : List AgentEvent,
      ((run evs).toolUses.map Prod.fst).Nodup
      ∧ ((run evs).blocks.map Block.toolId).Nodup)
    ∧ ((run [AgentEvent.toolProgress "t1" "Bash" 3,
          AgentEvent.toolUse (some "t1") "syn" "Bash" ⟨none, 7⟩ .notFile]).toolUses.map
          Prod.fst = ["t1"]
      ∧ (run [AgentEvent.toolProgress "t1" "Bash" 3,
          AgentEvent.toolUse (some "t1") "syn" "Bash" ⟨none, 7⟩ .notFile]).blocks.map
          Block.toolId = ["t1"]
      ∧ (alGet (run [AgentEvent.toolProgress "t1" "Bash" 3,
          AgentEvent.toolUse (some "t1") "syn" "Bash" ⟨none, 7⟩ .notFile]).toolUses "t1").map
          (fun td => (td.name, td.input)) = some ("Bash", ⟨none, 7⟩)) :=
  ⟨fun evs => ⟨(inv_run evs).1, (inv_run evs).2.2.1⟩, by decide, by decide, by decide⟩

end ObsidianAgent
